import Mathlib

set_option maxRecDepth 40000

/-!
Verification of the vector-index and embedding services of the
Fashion-Sense-AI repository.

The development shallowly embeds the two services the specification
is about:

* `Services/faiss_service.py` — the `FAISSService` class, a brute-force
  L2 nearest-neighbour index over 896-dimensional vectors keyed by
  product identifiers.  Vectors are modelled as lists of rationals
  (the idealisation of the float32 arrays), the faiss `IndexFlatL2`
  contents as the list `vectors`, the Python list `product_ids` as a
  list of naturals, and the Python dict `id_to_idx` as an
  insertion-ordered association list with the overwrite-in-place
  semantics of dict assignment.

* `Services/embedding_service.py` — the multimodal fusion arithmetic
  (`encode_multimodal`, `batch_encode_products`).  The neural encoders
  themselves are opaque model calls and are taken as parameters; the
  fusion arithmetic is embedded over the reals.
-/

/-- A vector, the idealisation of a 1-D numpy float32 array. -/
abbrev Vec : Type := List ℚ

/-- `self.dimension = 896` fixed in `FAISSService.__init__`. -/
def dimension : ℕ := 896

/-- Python dict lookup on the association-list model of `id_to_idx`:
first (and by construction only) binding of the key. -/
def dictFind (d : List (ℕ × ℕ)) (k : ℕ) : Option ℕ :=
  match d with
  | [] => none
  | p :: rest => if p.1 = k then some p.2 else dictFind rest k

/-- Python `k in d` membership test. -/
def dictContains (d : List (ℕ × ℕ)) (k : ℕ) : Bool :=
  (dictFind d k).isSome

/-- Python dict assignment `d[k] = v`: overwrite the binding in place
when the key exists, otherwise append the new binding. -/
def dictInsert (d : List (ℕ × ℕ)) (k v : ℕ) : List (ℕ × ℕ) :=
  match d with
  | [] => [(k, v)]
  | p :: rest => if p.1 = k then (k, v) :: rest else p :: dictInsert rest k v

/-- The loop `for i, pid in enumerate(new_ids): d[pid] = start + i`,
with `n` tracking `start + i`. -/
def insertSeq (d : List (ℕ × ℕ)) (n : ℕ) : List ℕ → List (ℕ × ℕ)
  | [] => d
  | pid :: rest => insertSeq (dictInsert d pid n) (n + 1) rest

/-- The association list `[(l[0], n), (l[1], n+1), ...]`; the canonical
shape of `id_to_idx` when `l` is the `product_ids` list. -/
def idxPairsFrom (n : ℕ) : List ℕ → List (ℕ × ℕ)
  | [] => []
  | pid :: rest => (pid, n) :: idxPairsFrom (n + 1) rest

/-- The mutable state of a `FAISSService` after `initialize`:
the faiss index contents, the `product_ids` list and the `id_to_idx`
dict. -/
structure IndexState where
  vectors : List Vec
  product_ids : List ℕ
  id_to_idx : List (ℕ × ℕ)
deriving DecidableEq

/-- `create_new_index`: a fresh empty `IndexFlatL2` plus empty mappings. -/
def create_new_index : IndexState := ⟨[], [], []⟩

/-- Observable outcome of a mutating call: normal return, the
duplicate-skip warning path, the batch all-duplicates no-op path, or a
raised exception (in which case the paired state is the state at the
moment of the raise, which in this code is always the entry state). -/
inductive AddOutcome where
  | added
  | skippedDuplicate
  | noNewProducts
  | raised (msg : String)
deriving DecidableEq

/-- `FAISSService.add_embedding`.  The dimension check happens before
the duplicate check and before any mutation, so a raise leaves the
state untouched; a duplicate product id is skipped with a warning. -/
def add_embedding (s : IndexState) (pid : ℕ) (emb : Vec) : IndexState × AddOutcome :=
  if emb.length ≠ dimension then
    (s, .raised "embedding dimension does not match index dimension")
  else if dictContains s.id_to_idx pid then
    (s, .skippedDuplicate)
  else
    ({ vectors := s.vectors ++ [emb],
       product_ids := s.product_ids ++ [pid],
       id_to_idx := dictInsert s.id_to_idx pid s.product_ids.length },
     .added)

/-- `FAISSService.add_embeddings_batch`.  Mirrors the source order:
`np.array` conversion (raises on an empty or ragged list), the
`shape[1]` dimension check, the arity check, the duplicate filter
against `id_to_idx`, the all-duplicates no-op, then the bulk append
and the mapping-update loop. -/
def add_embeddings_batch (s : IndexState) (pids : List ℕ) (embs : List Vec) :
    IndexState × AddOutcome :=
  match embs with
  | [] => (s, .raised "IndexError: tuple index out of range")
  | e0 :: _ =>
    if embs.any (fun r => r.length ≠ e0.length) then
      (s, .raised "ValueError: inhomogeneous shape")
    else if e0.length ≠ dimension then
      (s, .raised "embedding dimension does not match index dimension")
    else if pids.length ≠ embs.length then
      (s, .raised "number of product IDs must match number of embeddings")
    else
      let pairs := (pids.zip embs).filter (fun p => ! dictContains s.id_to_idx p.1)
      let newIds := pairs.map Prod.fst
      let newEmbs := pairs.map Prod.snd
      if newIds = [] then (s, .noNewProducts)
      else
        ({ vectors := s.vectors ++ newEmbs,
           product_ids := s.product_ids ++ newIds,
           id_to_idx := insertSeq s.id_to_idx s.product_ids.length newIds },
         .added)

/-- The lockstep invariant of the spec data model: as many stored
vectors as `id_to_idx` entries, no product id stored twice, and the
dict maps each product id to its position in `product_ids` (which is
also the position of its vector). -/
def Lockstep (s : IndexState) : Prop :=
  s.vectors.length = s.id_to_idx.length ∧
  s.product_ids.Nodup ∧
  s.id_to_idx = idxPairsFrom 0 s.product_ids

/-- Every vector stored in the index has the index dimension. -/
def DimOk (s : IndexState) : Prop :=
  ∀ v ∈ s.vectors, List.length v = dimension

/-- Squared L2 distance between a query and a stored vector, the
metric of `IndexFlatL2` (the zipWith idealises the elementwise numpy
subtraction of two arrays of equal length). -/
def sqL2 (q v : Vec) : ℚ :=
  (List.zipWith (fun a b => (a - b) * (a - b)) q v).sum

/-- All stored vectors scored against the query, tagged with their
insertion position in the index. -/
def scoreAll (s : IndexState) (q : Vec) : List (ℕ × ℚ) :=
  s.vectors.enum.map (fun p => (p.1, sqL2 q p.2))

/-- The ranking order of faiss results: strictly smaller distance
first, ties by smaller insertion position. -/
def rankLE (a b : ℕ × ℚ) : Prop :=
  a.2 < b.2 ∨ (a.2 = b.2 ∧ a.1 ≤ b.1)

instance : DecidableRel rankLE := fun a b => by
  unfold rankLE; infer_instance

instance : IsTotal (ℕ × ℚ) rankLE := by
  constructor
  intro a b
  rcases lt_trichotomy a.2 b.2 with h | h | h
  · exact Or.inl (Or.inl h)
  · rcases Nat.le_total a.1 b.1 with h2 | h2
    · exact Or.inl (Or.inr ⟨h, h2⟩)
    · exact Or.inr (Or.inr ⟨h.symm, h2⟩)
  · exact Or.inr (Or.inl h)

instance : IsTrans (ℕ × ℚ) rankLE := by
  constructor
  intro a b c hab hbc
  rcases hab with h1 | ⟨h1, h3⟩ <;> rcases hbc with h2 | ⟨h2, h4⟩
  · exact Or.inl (h1.trans h2)
  · exact Or.inl (h2 ▸ h1)
  · exact Or.inl (h1 ▸ h2)
  · exact Or.inr ⟨h1.trans h2, h3.trans h4⟩

/-- Modelled from the spec: `self.index.search(query, k)` is a call
into the external faiss library, absent from the repository; per the
spec the `IndexFlatL2` search is an exhaustive scan returning results
in ascending squared-L2 order with ties broken by insertion order
(stable ranking).  Sorting the position-tagged scores by `rankLE` is
exactly that: a stable sort by distance of a list that is in insertion
order. -/
def searchRanked (s : IndexState) (q : Vec) : List (ℕ × ℚ) :=
  List.insertionSort rankLE (scoreAll s q)

/-- `FAISSService.search`: empty-index early return, query dimension
check, `top_k` clamped to `ntotal`, then the ranked scan, with
internal positions translated back through `product_ids` (the junk
default is never reached on positions produced by the scan of a
well-formed state). -/
def search (s : IndexState) (q : Vec) (topK : ℕ) : Except String (List (ℕ × ℚ)) :=
  if s.vectors.length = 0 then .ok []
  else if q.length ≠ dimension then
    .error "query dimension does not match index dimension"
  else
    let k := min topK s.vectors.length
    .ok (((searchRanked s q).take k).map (fun p => (s.product_ids.getD p.1 0, p.2)))

/-- `FAISSService.search_with_threshold`: delegate to `search`
(exceptions propagate), then keep only distances at most the
threshold when one is supplied. -/
def search_with_threshold (s : IndexState) (q : Vec) (topK : ℕ) (thr : Option ℚ) :
    Except String (List (ℕ × ℚ)) :=
  match search s q topK with
  | .error e => .error e
  | .ok results =>
    match thr with
    | none => .ok results
    | some t => .ok (results.filter (fun p => p.2 ≤ t))

/-- `FAISSService.get_product_embedding`: `None` when the id is not in
`id_to_idx`, otherwise `self.index.reconstruct(idx)`, the vector stored
at that position (modelled as the list lookup; an out-of-range
position, impossible in a lockstep state, is `none`). -/
def get_product_embedding (s : IndexState) (pid : ℕ) : Option Vec :=
  match dictFind s.id_to_idx pid with
  | none => none
  | some idx => s.vectors.get? idx

/-- `FAISSService.remove_product`: not-found is a printed no-op;
otherwise reconstruct every vector except the target (walking
`product_ids` and reading positions from `id_to_idx`), discard the old
index via `create_new_index`, and bulk-add the survivors (skipped when
nothing survives). -/
def remove_product (s : IndexState) (pid : ℕ) : IndexState :=
  if ¬ dictContains s.id_to_idx pid then s
  else
    let kept := s.product_ids.filter (fun p => p ≠ pid)
    let embs := kept.map (fun p =>
      match dictFind s.id_to_idx p with
      | some idx => s.vectors.getD idx []
      | none => [])
    if embs = [] then create_new_index
    else (add_embeddings_batch create_new_index kept embs).1

/-- `FAISSService.rebuild_index`: `create_new_index` followed by a
bulk add of the supplied ids and vectors. -/
def rebuild_index (pids : List ℕ) (embs : List Vec) : IndexState × AddOutcome :=
  add_embeddings_batch create_new_index pids embs

/-- The durable storage the service loads from: the faiss index blob
(the stored vectors), the pickle mapping blob (`product_ids` and
`id_to_idx`), and whether reading or unpickling the present blobs
raises. -/
structure Storage where
  indexBlob : Option (List Vec)
  mappingBlob : Option (List ℕ × List (ℕ × ℕ))
  loadRaises : Bool

/-- `FAISSService.load_index`: read both blobs and install them as-is
(no structural or count checks); any exception is caught and answered
by `create_new_index`. -/
def load_index (st : Storage) : IndexState :=
  if st.loadRaises then create_new_index
  else
    match st.indexBlob, st.mappingBlob with
    | some vs, some m => ⟨vs, m.1, m.2⟩
    | _, _ => create_new_index

/-- `FAISSService.initialize`: when both files exist, `load_index`
(which never lets an exception escape), otherwise a fresh empty index;
the call itself never fails. -/
def init_service (st : Storage) : Except String IndexState :=
  if st.indexBlob.isSome ∧ st.mappingBlob.isSome then .ok (load_index st)
  else .ok create_new_index

/-- The three neural encoders of `EmbeddingService`, taken as opaque
model calls: CLIP image features, CLIP text features, and the
SentenceTransformer text features (each already normalised inside the
model wrapper, which this development does not rely on). -/
structure Encoders where
  clipImage : String → List ℝ
  clipText : List Char → List ℝ
  sbertText : List Char → List ℝ

/-- `np.linalg.norm` of a vector: square root of the sum of squares. -/
noncomputable def l2norm (v : List ℝ) : ℝ :=
  Real.sqrt ((v.map (fun x => x * x)).sum)

/-- The final step shared by the encode functions: divide by the norm
when it is positive, otherwise return the vector unchanged. -/
noncomputable def l2normalize (v : List ℝ) : List ℝ :=
  if 0 < l2norm v then v.map (fun x => x / l2norm v) else v

/-- `EmbeddingService.encode_text_clip`: empty or whitespace-only text
(in Python, `not text or not text.strip()`; with text as a character
list, every character is whitespace) short-circuits to the
512-dimensional zero vector, otherwise the CLIP text model runs. -/
noncomputable def encode_text_clip (E : Encoders) (text : List Char) : List ℝ :=
  if text.all Char.isWhitespace then List.replicate 512 0 else E.clipText text

/-- `EmbeddingService.encode_text_sbert`: empty or whitespace-only
text short-circuits to the 384-dimensional zero vector, otherwise the
SentenceTransformer runs. -/
noncomputable def encode_text_sbert (E : Encoders) (text : List Char) : List ℝ :=
  if text.all Char.isWhitespace then List.replicate 384 0 else E.sbertText text

/-- `EmbeddingService.encode_image_clip`: the CLIP image model call. -/
def encode_image_clip (E : Encoders) (src : String) : List ℝ :=
  E.clipImage src

/-- `EmbeddingService.encode_multimodal`: average the CLIP image and
CLIP text vectors elementwise (text falsiness selects a zero vector
instead of an encoder call), append the SentenceTransformer vector
(same guard), then normalise. -/
noncomputable def encode_multimodal (E : Encoders) (img : String)
    (text : List Char) : List ℝ :=
  let ci := encode_image_clip E img
  let ct := if text ≠ [] then encode_text_clip E text else List.replicate 512 0
  let cc := List.zipWith (fun a b => (a + b) / 2) ci ct
  let sb := if text ≠ [] then encode_text_sbert E text else List.replicate 384 0
  l2normalize (cc ++ sb)

/-- The fusion rule in the words of the spec: the concatenation whose
first block is the elementwise average `(i + t) / 2` and whose second
block is `s` unmodified, L2-normalised unless its norm is exactly
zero, in which case the zero vector is returned unnormalised. -/
noncomputable def fuseSpec (i t s : List ℝ) : List ℝ :=
  let c := List.zipWith (fun a b => (a + b) / 2) i t ++ s
  if l2norm c = 0 then c else c.map (fun x => x / l2norm c)

/-- One attempted product encoding inside the batch loop: the result
of `encode_product` when it returns, `none` when it raises (image
download or decoding failures are external events, so the attempt is a
parameter). The except branch substitutes the 896-dimensional zero
vector. -/
def encodeOrZero {α : Type} (enc : α → Option (List ℝ)) (p : α) : List ℝ :=
  match enc p with
  | some e => e
  | none => List.replicate 896 0

/-- The slices `products[i:i+batch_size]` visited by the loop
`for i in range(0, len(products), batch_size)`; empty when
`batch_size` is zero, where the Python `range` call raises instead. -/
def batchChunks {α : Type} (bs : ℕ) (l : List α) : List (List α) :=
  if _h : l.length = 0 ∨ bs = 0 then []
  else l.take bs :: batchChunks bs (l.drop bs)
termination_by l.length
decreasing_by
  simp only [not_or] at _h
  simp only [List.length_drop]
  omega

/-- `EmbeddingService.batch_encode_products`: walk the batch slices in
order, appending per product either its embedding or the zero vector
on a caught exception, accumulating one flat result list. -/
def batch_encode_products {α : Type} (enc : α → Option (List ℝ)) (bs : ℕ)
    (products : List α) : List (List ℝ) :=
  (batchChunks bs products).foldl
    (fun acc batch => batch.foldl (fun a p => a ++ [encodeOrZero enc p]) acc) []

/-! ### Concrete inputs used to exercise the theorems -/

/-- The 896-dimensional zero vector. -/
def vzero : Vec := List.replicate 896 0

/-- An 896-dimensional all-ones vector. -/
def vone : Vec := List.replicate 896 1

/-- A one-product index state: the zero vector stored for product 7. -/
def sOne : IndexState := ⟨[vzero], [7], [(7, 0)]⟩

/-- Storage whose two blobs disagree: the index blob holds one vector
while the mapping blob holds no product ids. -/
def stBad : Storage := ⟨some [vzero], some ([], []), false⟩

/-- Storage with the index blob present but the mapping blob missing. -/
def stHalf : Storage := ⟨some [vzero], none, false⟩

/-- A tiny product encoder: product 0 raises, every other product
yields an 896-dimensional embedding. -/
noncomputable def enc0 : ℕ → Option (List ℝ) :=
  fun n => if n = 0 then none else some (List.replicate 896 1)

/-! ### Association-list (Python dict) lemmas -/

theorem dictFind_cons (p : ℕ × ℕ) (rest : List (ℕ × ℕ)) (k : ℕ) :
    dictFind (p :: rest) k = if p.1 = k then some p.2 else dictFind rest k := rfl

theorem idxPairsFrom_cons (n q : ℕ) (rest : List ℕ) :
    idxPairsFrom n (q :: rest) = (q, n) :: idxPairsFrom (n + 1) rest := rfl

theorem dictFind_append_of_none {d1 : List (ℕ × ℕ)} {k : ℕ} (d2 : List (ℕ × ℕ))
    (h : dictFind d1 k = none) : dictFind (d1 ++ d2) k = dictFind d2 k := by
  induction d1 with
  | nil => rfl
  | cons p rest ih =>
    rw [dictFind_cons] at h
    rw [List.cons_append, dictFind_cons]
    by_cases hk : p.1 = k
    · simp [hk] at h
    · simp only [hk, if_false] at h ⊢
      exact ih h

theorem dictFind_singleton (k v p : ℕ) :
    dictFind [(k, v)] p = if k = p then some v else none := rfl

theorem dictInsert_of_none {d : List (ℕ × ℕ)} {k : ℕ} (v : ℕ)
    (h : dictFind d k = none) : dictInsert d k v = d ++ [(k, v)] := by
  induction d with
  | nil => rfl
  | cons p rest ih =>
    rw [dictFind_cons] at h
    show (if p.1 = k then (k, v) :: rest else p :: dictInsert rest k v) = _
    by_cases hk : p.1 = k
    · simp [hk] at h
    · simp only [hk, if_false] at h ⊢
      rw [ih h, List.cons_append]

theorem insertSeq_fresh :
    ∀ (ids : List ℕ) (d : List (ℕ × ℕ)) (n : ℕ),
      (∀ p ∈ ids, dictFind d p = none) → ids.Nodup →
      insertSeq d n ids = d ++ idxPairsFrom n ids := by
  intro ids
  induction ids with
  | nil => intro d n _ _; simp [insertSeq, idxPairsFrom]
  | cons pid rest ih =>
    intro d n hfresh hnd
    show insertSeq (dictInsert d pid n) (n + 1) rest = _
    rw [dictInsert_of_none n (hfresh pid (List.mem_cons_self pid rest))]
    have hnd2 := List.nodup_cons.mp hnd
    have hfresh2 : ∀ p ∈ rest, dictFind (d ++ [(pid, n)]) p = none := by
      intro p hp
      rw [dictFind_append_of_none _ (hfresh p (List.mem_cons_of_mem pid hp))]
      rw [dictFind_singleton]
      have h3 : pid ≠ p := fun he => hnd2.1 (he ▸ hp)
      simp [h3]
    rw [ih (d ++ [(pid, n)]) (n + 1) hfresh2 hnd2.2]
    rw [idxPairsFrom_cons, List.append_assoc, List.singleton_append]

theorem idxPairsFrom_length : ∀ (n : ℕ) (l : List ℕ),
    (idxPairsFrom n l).length = l.length := by
  intro n l
  induction l generalizing n with
  | nil => rfl
  | cons p rest ih => simp [idxPairsFrom_cons, ih]

theorem idxPairsFrom_append (n : ℕ) (a b : List ℕ) :
    idxPairsFrom n (a ++ b) = idxPairsFrom n a ++ idxPairsFrom (n + a.length) b := by
  induction a generalizing n with
  | nil => simp [idxPairsFrom]
  | cons p rest ih =>
    rw [List.cons_append, idxPairsFrom_cons, idxPairsFrom_cons, ih (n + 1)]
    have h : n + 1 + rest.length = n + (p :: rest).length := by
      simp only [List.length_cons]; omega
    rw [h, List.cons_append]

theorem dictFind_idxPairsFrom_of_not_mem {p : ℕ} :
    ∀ {l : List ℕ} (n : ℕ), p ∉ l → dictFind (idxPairsFrom n l) p = none := by
  intro l
  induction l with
  | nil => intro n _; rfl
  | cons q rest ih =>
    intro n hp
    rw [idxPairsFrom_cons, dictFind_cons]
    have h1 : q ≠ p := fun he => hp (he ▸ List.mem_cons_self q rest)
    simp only [h1, if_false]
    exact ih (n + 1) (fun hm => hp (List.mem_cons_of_mem q hm))

theorem dictFind_idxPairsFrom_of_mem {p : ℕ} :
    ∀ {l : List ℕ} (n : ℕ), p ∈ l →
      ∃ i, dictFind (idxPairsFrom n l) p = some i ∧ n ≤ i ∧ i < n + l.length := by
  intro l
  induction l with
  | nil => intro n hp; cases hp
  | cons q rest ih =>
    intro n hp
    rw [idxPairsFrom_cons, dictFind_cons]
    by_cases hq : q = p
    · refine ⟨n, by simp [hq], Nat.le_refl n, ?_⟩
      simp only [List.length_cons]
      omega
    · have hp2 : p ∈ rest := by
        cases hp with
        | head => exact absurd rfl hq
        | tail _ h => exact h
      rcases ih (n + 1) hp2 with ⟨i, h1, h2, h3⟩
      refine ⟨i, ?_, by omega, ?_⟩
      · simp only [hq, if_false]
        exact h1
      · simp only [List.length_cons]
        omega

theorem dictContains_false_iff {d : List (ℕ × ℕ)} {k : ℕ} :
    dictContains d k = false ↔ dictFind d k = none := by
  unfold dictContains
  cases hf : dictFind d k <;> simp

theorem dictContains_true_iff {d : List (ℕ × ℕ)} {k : ℕ} :
    dictContains d k = true ↔ ∃ v, dictFind d k = some v := by
  unfold dictContains
  cases hf : dictFind d k <;> simp

/-! ### Lockstep preservation -/

theorem lockstep_create : Lockstep create_new_index :=
  ⟨rfl, List.nodup_nil, rfl⟩

theorem lockstep_vectors_length {s : IndexState} (hL : Lockstep s) :
    s.vectors.length = s.product_ids.length := by
  rw [hL.1, hL.2.2, idxPairsFrom_length]

theorem lockstep_not_mem {s : IndexState} (hL : Lockstep s)
    (h : dictFind s.id_to_idx pid = none) : pid ∉ s.product_ids := by
  intro hm
  rcases dictFind_idxPairsFrom_of_mem 0 hm with ⟨i, hi, _, _⟩
  rw [hL.2.2, hi] at h
  cases h

theorem add_embedding_lockstep (s : IndexState) (pid : ℕ) (emb : Vec)
    (hL : Lockstep s) : Lockstep (add_embedding s pid emb).1 := by
  unfold add_embedding
  split_ifs with h1 h2
  · exact hL
  · exact hL
  · obtain ⟨hlen, hnds, hdict⟩ := hL
    have hfind : dictFind s.id_to_idx pid = none :=
      dictContains_false_iff.mp (Bool.not_eq_true _ ▸ eq_false_of_ne_true h2)
    have hnm : pid ∉ s.product_ids := lockstep_not_mem ⟨hlen, hnds, hdict⟩ hfind
    refine ⟨?_, ?_, ?_⟩
    · rw [dictInsert_of_none _ hfind]
      simp [hlen]
    · rw [List.nodup_append]
      refine ⟨hnds, List.nodup_singleton pid, ?_⟩
      intro a ha hb
      rw [List.mem_singleton] at hb
      exact hnm (hb ▸ ha)
    · rw [dictInsert_of_none _ hfind, hdict, idxPairsFrom_append, Nat.zero_add]
      rfl

theorem add_embeddings_batch_lockstep (s : IndexState) (pids : List ℕ)
    (embs : List Vec) (hL : Lockstep s) (hnd : pids.Nodup) :
    Lockstep (add_embeddings_batch s pids embs).1 := by
  cases embs with
  | nil => exact hL
  | cons e0 rest =>
    dsimp only [add_embeddings_batch]
    split_ifs with h1 h2 h3 h4
    · exact hL
    · exact hL
    · exact hL
    · exact hL
    · obtain ⟨hlen, hnds, hdict⟩ := hL
      have harity : pids.length = (e0 :: rest).length := not_ne_iff.mp h3
      set pairs := (pids.zip (e0 :: rest)).filter
        (fun p => ! dictContains s.id_to_idx p.1) with hpairs
      set newIds := pairs.map Prod.fst with hnew
      have hfresh : ∀ p ∈ newIds, dictFind s.id_to_idx p = none := by
        intro p hp
        rcases List.mem_map.mp hp with ⟨pr, hpr, hpr2⟩
        have hf := (List.mem_filter.mp hpr).2
        rw [Bool.not_eq_eq_eq_not, Bool.not_true] at hf
        exact hpr2 ▸ dictContains_false_iff.mp hf
      have hsub : newIds.Sublist pids := by
        have hz : (pids.zip (e0 :: rest)).map Prod.fst = pids :=
          List.map_fst_zip _ _ (le_of_eq harity)
        have hs1 : pairs.Sublist (pids.zip (e0 :: rest)) := List.filter_sublist _
        have hs2 := hs1.map Prod.fst
        rw [hz] at hs2
        exact hs2
      have hndNew : newIds.Nodup := List.Nodup.sublist hsub hnd
      have hnotmem : ∀ p ∈ newIds, p ∉ s.product_ids := fun p hp =>
        lockstep_not_mem ⟨hlen, hnds, hdict⟩ (hfresh p hp)
      refine ⟨?_, ?_, ?_⟩
      · simp only [List.length_append]
        rw [insertSeq_fresh newIds s.id_to_idx s.product_ids.length hfresh hndNew]
        simp only [List.length_append, idxPairsFrom_length, List.length_map, hlen]
        rw [hnew, List.length_map]
      · rw [List.nodup_append]
        refine ⟨hnds, hndNew, ?_⟩
        intro a ha hb
        exact hnotmem a hb ha
      · rw [insertSeq_fresh newIds s.id_to_idx s.product_ids.length hfresh hndNew]
        rw [hdict, idxPairsFrom_append, Nat.zero_add]

theorem rebuild_index_lockstep (pids : List ℕ) (embs : List Vec)
    (hnd : pids.Nodup) : Lockstep (rebuild_index pids embs).1 :=
  add_embeddings_batch_lockstep create_new_index pids embs lockstep_create hnd

theorem remove_product_lockstep (s : IndexState) (pid : ℕ)
    (hL : Lockstep s) : Lockstep (remove_product s pid) := by
  unfold remove_product
  split_ifs with h1
  · dsimp only
    split_ifs with h2
    · exact lockstep_create
    · exact add_embeddings_batch_lockstep create_new_index _ _ lockstep_create
        (List.Nodup.filter _ hL.2.1)
  · exact hL

/-! ### Search lemmas -/

theorem scoreAll_length (s : IndexState) (q : Vec) :
    (scoreAll s q).length = s.vectors.length := by
  unfold scoreAll
  rw [List.length_map, List.enum_length]

theorem searchRanked_perm (s : IndexState) (q : Vec) :
    (searchRanked s q).Perm (scoreAll s q) :=
  List.perm_insertionSort rankLE (scoreAll s q)

theorem searchRanked_length (s : IndexState) (q : Vec) :
    (searchRanked s q).length = s.vectors.length := by
  rw [(searchRanked_perm s q).length_eq, scoreAll_length]

theorem sorted_searchRanked (s : IndexState) (q : Vec) :
    List.Sorted rankLE (searchRanked s q) :=
  List.sorted_insertionSort rankLE (scoreAll s q)

theorem nodup_fst_searchRanked (s : IndexState) (q : Vec) :
    ((searchRanked s q).map Prod.fst).Nodup := by
  have hp : ((searchRanked s q).map Prod.fst).Perm ((scoreAll s q).map Prod.fst) :=
    (searchRanked_perm s q).map Prod.fst
  rw [hp.nodup_iff]
  unfold scoreAll
  rw [List.map_map]
  exact List.nodup_enum_map_fst s.vectors

theorem search_eq_ok (s : IndexState) (q : Vec) (topK : ℕ)
    (hq : q.length = dimension) :
    search s q topK =
      .ok (((searchRanked s q).take (min topK s.vectors.length)).map
        (fun p => (s.product_ids.getD p.1 0, p.2))) := by
  unfold search
  split_ifs with h1 h2
  · rw [h1]
    simp [searchRanked_length]
  · exact absurd hq h2
  · rfl

theorem search_ok_length (s : IndexState) (q : Vec) (topK : ℕ)
    (r : List (ℕ × ℚ)) (h : search s q topK = .ok r) :
    r.length = min topK s.vectors.length := by
  unfold search at h
  split_ifs at h with h1 h2
  · cases h
    simp [h1]
  · cases h
    simp only [List.length_map, List.length_take, searchRanked_length]
    rw [min_assoc, min_self]

/-! ### Fusion and batch-encoding lemmas -/

theorem l2normalize_eq (v : List ℝ) :
    l2normalize v = if l2norm v = 0 then v else v.map (fun x => x / l2norm v) := by
  unfold l2normalize
  by_cases h : l2norm v = 0
  · simp [h]
  · have hpos : 0 < l2norm v :=
      lt_of_le_of_ne (Real.sqrt_nonneg _) (Ne.symm h)
    simp [h, hpos]

theorem foldl_push {α β : Type} (f : α → β) :
    ∀ (l : List α) (acc : List β),
      l.foldl (fun a p => a ++ [f p]) acc = acc ++ l.map f := by
  intro l
  induction l with
  | nil => intro acc; simp
  | cons p rest ih =>
    intro acc
    simp only [List.foldl_cons, List.map_cons, ih]
    rw [List.append_assoc, List.singleton_append]

theorem foldl_chunks {α β : Type} (f : α → β) :
    ∀ (cs : List (List α)) (acc : List β),
      cs.foldl (fun acc c => c.foldl (fun a p => a ++ [f p]) acc) acc =
        acc ++ cs.flatten.map f := by
  intro cs
  induction cs with
  | nil => intro acc; simp
  | cons c rest ih =>
    intro acc
    rw [List.foldl_cons, foldl_push f c acc, ih, List.flatten_cons,
      List.map_append, List.append_assoc]

theorem join_batchChunks {α : Type} (bs : ℕ) (hbs : 0 < bs) :
    ∀ l : List α, (batchChunks bs l).flatten = l := by
  have key : ∀ (n : ℕ) (l : List α), l.length ≤ n →
      (batchChunks bs l).flatten = l := by
    intro n
    induction n with
    | zero =>
      intro l hl
      have h0 : l = [] := List.length_eq_zero.mp (Nat.le_zero.mp hl)
      subst h0
      rw [batchChunks]
      simp
    | succ n ih =>
      intro l hl
      rw [batchChunks]
      by_cases h : l.length = 0 ∨ bs = 0
      · rcases h with h | h
        · rw [dif_pos (Or.inl h)]
          rw [List.length_eq_zero.mp h]
          rfl
        · omega
      · rw [dif_neg h]
        rw [List.flatten_cons]
        have hlen : (l.drop bs).length ≤ n := by
          rw [List.length_drop]
          omega
        rw [ih (l.drop bs) hlen, List.take_append_drop]
  intro l
  exact key l.length l (Nat.le_refl _)

theorem batch_encode_eq_map {α : Type} (enc : α → Option (List ℝ)) (bs : ℕ)
    (products : List α) (hbs : 0 < bs) :
    batch_encode_products enc bs products = products.map (encodeOrZero enc) := by
  unfold batch_encode_products
  rw [foldl_chunks, join_batchChunks bs hbs, List.nil_append]

/-! ### Reconstruction and fresh-rebuild lemmas -/

theorem get_product_embedding_of_mem {s : IndexState} (hL : Lockstep s)
    {p : ℕ} (hp : p ∈ s.product_ids) :
    ∃ v, get_product_embedding s p = some v ∧ v ∈ s.vectors := by
  rcases dictFind_idxPairsFrom_of_mem 0 hp with ⟨i, hi, _, hilt⟩
  have hlt : i < s.vectors.length := by
    rw [lockstep_vectors_length hL]
    omega
  refine ⟨s.vectors.get ⟨i, hlt⟩, ?_, List.get_mem s.vectors i hlt⟩
  unfold get_product_embedding
  rw [hL.2.2, hi]
  dsimp only
  exact List.get?_eq_get hlt

theorem batch_fresh_state (pids : List ℕ) (embs : List Vec)
    (hnd : pids.Nodup) (hlen : pids.length = embs.length) (hne : pids ≠ [])
    (hdim : ∀ v ∈ embs, List.length v = dimension) :
    (add_embeddings_batch create_new_index pids embs).1 =
      ⟨embs, pids, idxPairsFrom 0 pids⟩ := by
  cases embs with
  | nil =>
    exact absurd (List.length_eq_zero.mp hlen) hne
  | cons e0 rest =>
    dsimp only [add_embeddings_batch]
    have h1 : ¬((e0 :: rest).any fun r => decide (List.length r ≠ List.length e0)) = true := by
      simp only [List.any_eq_true, decide_eq_true_eq, not_exists, not_and, not_not]
      intro r hr
      rw [hdim r hr, hdim e0 (List.mem_cons_self e0 rest)]
    have h2 : ¬(List.length e0 ≠ dimension) :=
      not_ne_iff.mpr (hdim e0 (List.mem_cons_self e0 rest))
    have h3 : ¬(pids.length ≠ (e0 :: rest).length) := not_ne_iff.mpr hlen
    rw [if_neg h1, if_neg h2, if_neg h3]
    have hfilter : (pids.zip (e0 :: rest)).filter
        (fun p => ! dictContains create_new_index.id_to_idx p.1) =
        pids.zip (e0 :: rest) :=
      List.filter_eq_self.mpr (fun p _ => rfl)
    rw [hfilter]
    have hfst : (pids.zip (e0 :: rest)).map Prod.fst = pids :=
      List.map_fst_zip _ _ (le_of_eq hlen)
    have hsnd : (pids.zip (e0 :: rest)).map Prod.snd = e0 :: rest :=
      List.map_snd_zip _ _ (le_of_eq hlen.symm)
    rw [hfst, hsnd, if_neg hne]
    have hins : insertSeq create_new_index.id_to_idx
        create_new_index.product_ids.length pids = idxPairsFrom 0 pids := by
      show insertSeq [] 0 pids = idxPairsFrom 0 pids
      rw [insertSeq_fresh pids [] 0 (fun p _ => rfl) hnd, List.nil_append]
    rw [hins]
    rfl

theorem get_after_fresh_batch (pids : List ℕ) (embs : List Vec) (pid : ℕ)
    (hnm : pid ∉ pids) (hnd : pids.Nodup) :
    get_product_embedding (add_embeddings_batch create_new_index pids embs).1 pid
      = none := by
  cases embs with
  | nil => rfl
  | cons e0 rest =>
    dsimp only [add_embeddings_batch]
    split_ifs with h1 h2 h3 h4
    · rfl
    · rfl
    · rfl
    · rfl
    · have harity : pids.length = (e0 :: rest).length := not_ne_iff.mp h3
      set pairs := (pids.zip (e0 :: rest)).filter
        (fun p => ! dictContains create_new_index.id_to_idx p.1) with hpairs
      set newIds := pairs.map Prod.fst with hnew
      have hsub : newIds.Sublist pids := by
        have hz : (pids.zip (e0 :: rest)).map Prod.fst = pids :=
          List.map_fst_zip _ _ (le_of_eq harity)
        have hs1 : pairs.Sublist (pids.zip (e0 :: rest)) := List.filter_sublist _
        have hs2 := hs1.map Prod.fst
        rw [hz] at hs2
        exact hs2
      have hnm2 : pid ∉ newIds := fun hm => hnm (hsub.subset hm)
      have hndNew : newIds.Nodup := List.Nodup.sublist hsub hnd
      unfold get_product_embedding
      have hins : insertSeq create_new_index.id_to_idx
          create_new_index.product_ids.length newIds = idxPairsFrom 0 newIds := by
        show insertSeq [] 0 newIds = idxPairsFrom 0 newIds
        rw [insertSeq_fresh newIds [] 0 (fun p _ => rfl) hndNew, List.nil_append]
      dsimp only
      rw [hins, dictFind_idxPairsFrom_of_not_mem 0 hnm2]

/-! ### Claims -/

/-- Claim C1: adding a vector whose length differs from the index
dimension (896) fails with the dimension-mismatch error, and the index
state returned alongside the raised outcome is exactly the entry
state: no partial insert. -/
theorem c1_dimension_mismatch_add (s : IndexState) (pid : ℕ) (emb : Vec)
    (h : emb.length ≠ dimension) :
    add_embedding s pid emb =
      (s, .raised "embedding dimension does not match index dimension") := by
  unfold add_embedding
  rw [if_pos h]

/-- Claim C1 witness: the empty vector is rejected by `add_embedding`
on a fresh index and the state is unchanged. -/
theorem c1_witness :
    List.length ([] : Vec) ≠ dimension ∧
    add_embedding create_new_index 0 [] =
      (create_new_index,
        .raised "embedding dimension does not match index dimension") :=
  ⟨by decide, c1_dimension_mismatch_add create_new_index 0 [] (by decide)⟩

/-- Claim C2 counterexample: `add_embeddings_batch` applied to a batch
that repeats a product id twice inside the same call breaks the
lockstep invariant: two vectors are appended but the dict keeps a
single overwritten entry, so the claim as stated (every mutation
preserves the invariant) is false. -/
theorem c2_counterexample :
    Lockstep create_new_index ∧
    ¬ Lockstep (add_embeddings_batch create_new_index [0, 0] [vzero, vzero]).1 := by
  have hstate : (add_embeddings_batch create_new_index [0, 0] [vzero, vzero]).1 =
      ⟨[vzero, vzero], [0, 0], [(0, 1)]⟩ := by rfl
  refine ⟨lockstep_create, ?_⟩
  intro h
  rw [hstate] at h
  have h1 := h.2.1
  simp at h1

/-- Claim C2 (amended): provided each batch call carries pairwise
distinct product ids, every index mutation (`add_embedding`,
`add_embeddings_batch`, `remove_product`, `rebuild_index`) preserves
the lockstep invariant. -/
theorem c2_amended_lockstep_preserved (s : IndexState) (hL : Lockstep s) :
    (∀ pid emb, Lockstep (add_embedding s pid emb).1) ∧
    (∀ pids embs, List.Nodup pids → Lockstep (add_embeddings_batch s pids embs).1) ∧
    (∀ pid, Lockstep (remove_product s pid)) ∧
    (∀ pids embs, List.Nodup pids → Lockstep (rebuild_index pids embs).1) :=
  ⟨fun pid emb => add_embedding_lockstep s pid emb hL,
   fun pids embs hnd => add_embeddings_batch_lockstep s pids embs hL hnd,
   fun pid => remove_product_lockstep s pid hL,
   fun pids embs hnd => rebuild_index_lockstep pids embs hnd⟩

/-- Claim C2 witness: a single add on the fresh empty index keeps the
lockstep invariant. -/
theorem c2_witness :
    Lockstep (add_embedding create_new_index 3 vzero).1 :=
  (c2_amended_lockstep_preserved create_new_index lockstep_create).1 3 vzero

/-- Claim C3: on a lockstep state where `pid` is absent, the first add
of a correctly sized vector succeeds; a second add of the same `pid`
is a pure no-op that reports the duplicate condition; the index holds
exactly one entry for `pid`; and reconstruction returns the first
inserted vector. -/
theorem c3_idempotent_add (s : IndexState) (pid : ℕ) (v1 v2 : Vec)
    (hL : Lockstep s) (h1 : v1.length = dimension) (h2 : v2.length = dimension)
    (hfresh : dictContains s.id_to_idx pid = false) :
    (add_embedding s pid v1).2 = .added ∧
    add_embedding (add_embedding s pid v1).1 pid v2 =
      ((add_embedding s pid v1).1, .skippedDuplicate) ∧
    (add_embedding s pid v1).1.product_ids.count pid = 1 ∧
    get_product_embedding (add_embedding s pid v1).1 pid = some v1 := by
  have hfind : dictFind s.id_to_idx pid = none := dictContains_false_iff.mp hfresh
  have hnm : pid ∉ s.product_ids := lockstep_not_mem hL hfind
  have hs1 : add_embedding s pid v1 =
      (⟨s.vectors ++ [v1], s.product_ids ++ [pid],
        dictInsert s.id_to_idx pid s.product_ids.length⟩, .added) := by
    unfold add_embedding
    rw [if_neg (not_ne_iff.mpr h1), if_neg (by rw [hfresh]; exact Bool.false_ne_true)]
  have hfind1 : dictFind (dictInsert s.id_to_idx pid s.product_ids.length) pid =
      some s.product_ids.length := by
    rw [dictInsert_of_none _ hfind, dictFind_append_of_none _ hfind,
      dictFind_singleton, if_pos rfl]
  refine ⟨by rw [hs1], ?_, ?_, ?_⟩
  · rw [hs1]
    unfold add_embedding
    rw [if_neg (not_ne_iff.mpr h2)]
    rw [if_pos (by exact dictContains_true_iff.mpr ⟨_, hfind1⟩)]
  · rw [hs1]
    show List.count pid (s.product_ids ++ [pid]) = 1
    rw [List.count_append]
    rw [List.count_eq_zero_of_not_mem hnm]
    simp
  · rw [hs1]
    unfold get_product_embedding
    show (match dictFind (dictInsert s.id_to_idx pid s.product_ids.length) pid with
      | none => none
      | some idx => (s.vectors ++ [v1]).get? idx) = some v1
    rw [hfind1]
    dsimp only
    rw [← lockstep_vectors_length hL]
    exact List.get?_concat_length s.vectors v1

/-- Claim C3 witness: concrete double add of product 7 on the fresh
empty index. -/
theorem c3_witness :
    (add_embedding create_new_index 7 vzero).2 = .added ∧
    add_embedding (add_embedding create_new_index 7 vzero).1 7 vone =
      ((add_embedding create_new_index 7 vzero).1, .skippedDuplicate) ∧
    (add_embedding create_new_index 7 vzero).1.product_ids.count 7 = 1 ∧
    get_product_embedding (add_embedding create_new_index 7 vzero).1 7 =
      some vzero :=
  c3_idempotent_add create_new_index 7 vzero vone lockstep_create
    (by decide) (by decide) rfl

/-- Claim C4: for a query of the index dimension, `search` returns
(without error) exactly `min top_k (stored count)` results; on an
empty index this count is zero, so the result is the empty list rather
than an error. -/
theorem c4_topk_clamp (s : IndexState) (q : Vec) (topK : ℕ)
    (hq : q.length = dimension) :
    ∃ r, search s q topK = .ok r ∧ r.length = min topK s.vectors.length :=
  ⟨_, search_eq_ok s q topK hq,
    search_ok_length s q topK _ (search_eq_ok s q topK hq)⟩

/-- Claim C4 witness: a top-5 query against the fresh empty index
returns the empty result list. -/
theorem c4_witness :
    ∃ r, search create_new_index vzero 5 = .ok r ∧
      r.length = min 5 create_new_index.vectors.length :=
  c4_topk_clamp create_new_index vzero 5 (by simp [vzero, dimension])

/-- Claim C5: every successful search result has non-decreasing
distances along the returned sequence, and the underlying ranked
prefix is strictly ordered by distance with ties broken by strictly
increasing insertion position (stable tie-break by insertion
order). -/
theorem c5_search_monotone (s : IndexState) (q : Vec) (topK : ℕ)
    (r : List (ℕ × ℚ)) (h : search s q topK = .ok r) :
    r.Pairwise (fun a b => a.2 ≤ b.2) ∧
    ((searchRanked s q).take (min topK s.vectors.length)).Pairwise
      (fun a b => a.2 < b.2 ∨ (a.2 = b.2 ∧ a.1 < b.1)) := by
  have hsorted : (searchRanked s q).Pairwise rankLE := sorted_searchRanked s q
  have hne : (searchRanked s q).Pairwise (fun a b => a.1 ≠ b.1) :=
    List.pairwise_map.mp (nodup_fst_searchRanked s q)
  have hstrict : (searchRanked s q).Pairwise
      (fun a b => a.2 < b.2 ∨ (a.2 = b.2 ∧ a.1 < b.1)) := by
    refine (hsorted.and hne).imp ?_
    rintro a b ⟨hr, hab⟩
    rcases hr with hlt | ⟨heq, hle⟩
    · exact Or.inl hlt
    · exact Or.inr ⟨heq, lt_of_le_of_ne hle hab⟩
  constructor
  · unfold search at h
    split_ifs at h with h1 h2
    · cases h
      exact List.Pairwise.nil
    · cases h
      refine List.pairwise_map.mpr ?_
      refine (hsorted.sublist (List.take_sublist _ _)).imp ?_
      intro a b hr
      rcases hr with hlt | ⟨heq, _⟩
      · exact le_of_lt hlt
      · exact le_of_eq heq
  · exact hstrict.sublist
      (List.take_sublist (min topK s.vectors.length) (searchRanked s q))

/-- Claim C5 witness: the empty search gives the trivially sorted
empty result. -/
theorem c5_witness :
    List.Pairwise (fun a b : ℕ × ℚ => a.2 ≤ b.2) [] ∧
    ((searchRanked create_new_index vzero).take
      (min 5 create_new_index.vectors.length)).Pairwise
      (fun a b => a.2 < b.2 ∨ (a.2 = b.2 ∧ a.1 < b.1)) :=
  c5_search_monotone create_new_index vzero 5 [] rfl

/-- Claim C6: removing a present product makes its reconstruction
report not-found, and the resulting index is literally the state a
fresh rebuild over the remaining (id, vector) pairs — in their
original insertion order — produces, so every search over the two
agrees; moreover that freshly built index holds exactly the remaining
vectors, ids and positions. -/
theorem c6_remove_matches_fresh_rebuild (s : IndexState) (pid : ℕ)
    (hL : Lockstep s) (hD : DimOk s)
    (hmem : dictContains s.id_to_idx pid = true) :
    get_product_embedding (remove_product s pid) pid = none ∧
    remove_product s pid =
      (rebuild_index (s.product_ids.filter (fun p => p ≠ pid))
        ((s.product_ids.filter (fun p => p ≠ pid)).map
          (fun p => (get_product_embedding s p).getD []))).1 ∧
    (∀ q k, search (remove_product s pid) q k =
      search (rebuild_index (s.product_ids.filter (fun p => p ≠ pid))
        ((s.product_ids.filter (fun p => p ≠ pid)).map
          (fun p => (get_product_embedding s p).getD []))).1 q k) ∧
    (rebuild_index (s.product_ids.filter (fun p => p ≠ pid))
        ((s.product_ids.filter (fun p => p ≠ pid)).map
          (fun p => (get_product_embedding s p).getD []))).1 =
      ⟨(s.product_ids.filter (fun p => p ≠ pid)).map
          (fun p => (get_product_embedding s p).getD []),
        s.product_ids.filter (fun p => p ≠ pid),
        idxPairsFrom 0 (s.product_ids.filter (fun p => p ≠ pid))⟩ := by
  set kept := s.product_ids.filter (fun p => p ≠ pid) with hkept
  set keptVecs := kept.map (fun p => (get_product_embedding s p).getD [])
    with hkv
  have hnd : kept.Nodup := List.Nodup.filter _ hL.2.1
  have hnotmem : pid ∉ kept := by
    intro hm
    have h2 := (List.mem_filter.mp hm).2
    rw [decide_eq_true_eq] at h2
    exact h2 rfl
  have hfn : ∀ p2, (match dictFind s.id_to_idx p2 with
      | some idx => s.vectors.getD idx []
      | none => ([] : Vec)) = (get_product_embedding s p2).getD [] := by
    intro p2
    unfold get_product_embedding
    cases dictFind s.id_to_idx p2 with
    | none => rfl
    | some idx => simp [List.getD_eq_getElem?_getD]
  have hmain : remove_product s pid =
      (rebuild_index kept keptVecs).1 := by
    unfold remove_product
    rw [if_neg (not_not_intro hmem)]
    dsimp only
    simp only [hfn]
    rw [← hkept, ← hkv]
    split_ifs with hemb
    · have hknil : kept = [] := List.map_eq_nil.mp hemb
      rw [hkv, hknil]
      rfl
    · rfl
  have hdimvecs : ∀ v ∈ keptVecs, List.length v = dimension := by
    intro v hv
    rcases List.mem_map.mp hv with ⟨p2, hp2, hvp⟩
    have hpm : p2 ∈ s.product_ids := (List.mem_filter.mp hp2).1
    rcases get_product_embedding_of_mem hL hpm with ⟨w, hw, hwm⟩
    rw [← hvp, hw]
    exact hD w hwm
  refine ⟨?_, hmain, fun q k => by rw [hmain], ?_⟩
  · rw [hmain]
    exact get_after_fresh_batch kept keptVecs pid hnotmem hnd
  · by_cases hk : kept = []
    · rw [hkv, hk]
      rfl
    · exact batch_fresh_state kept keptVecs hnd (List.length_map _ _).symm hk hdimvecs

/-- Claim C6 witness: removing the only product of a one-product
index leaves the empty index, on which the removed id reconstructs to
not-found and search agrees with the fresh rebuild. -/
theorem c6_witness :
    get_product_embedding (remove_product sOne 7) 7 = none ∧
    remove_product sOne 7 =
      (rebuild_index (sOne.product_ids.filter (fun p => p ≠ 7))
        ((sOne.product_ids.filter (fun p => p ≠ 7)).map
          (fun p => (get_product_embedding sOne p).getD []))).1 ∧
    (∀ q k, search (remove_product sOne 7) q k =
      search (rebuild_index (sOne.product_ids.filter (fun p => p ≠ 7))
        ((sOne.product_ids.filter (fun p => p ≠ 7)).map
          (fun p => (get_product_embedding sOne p).getD []))).1 q k) ∧
    (rebuild_index (sOne.product_ids.filter (fun p => p ≠ 7))
        ((sOne.product_ids.filter (fun p => p ≠ 7)).map
          (fun p => (get_product_embedding sOne p).getD []))).1 =
      ⟨(sOne.product_ids.filter (fun p => p ≠ 7)).map
          (fun p => (get_product_embedding sOne p).getD []),
        sOne.product_ids.filter (fun p => p ≠ 7),
        idxPairsFrom 0 (sOne.product_ids.filter (fun p => p ≠ 7))⟩ :=
  c6_remove_matches_fresh_rebuild sOne 7 ⟨rfl, by decide, rfl⟩
    (by
      intro v hv
      rw [List.mem_singleton.mp hv]
      simp [vzero, dimension])
    rfl

/-- Claim C7: thresholded search is exactly plain search with the
results whose distance exceeds the threshold removed (and untouched
when no threshold is supplied), and its result never holds more than
`top_k` entries. -/
theorem c7_threshold_filters_search (s : IndexState) (q : Vec) (topK : ℕ)
    (thr : Option ℚ) :
    search_with_threshold s q topK thr =
      (search s q topK).map (fun results =>
        match thr with
        | none => results
        | some t => results.filter (fun p => p.2 ≤ t)) ∧
    ((search_with_threshold s q topK thr).toOption.getD []).length ≤ topK ∧
    search_with_threshold s q topK none = search s q topK := by
  refine ⟨?_, ?_, ?_⟩
  · unfold search_with_threshold
    cases hs : search s q topK with
    | error e => cases thr <;> rfl
    | ok results => cases thr <;> rfl
  · unfold search_with_threshold
    cases hs : search s q topK with
    | error e =>
      cases thr <;> simp [Except.toOption]
    | ok results =>
      have hlen : results.length ≤ topK := by
        rw [search_ok_length s q topK results hs]
        exact min_le_left _ _
      cases thr with
      | none => simpa using hlen
      | some t =>
        simp only [Except.toOption, Option.getD]
        exact le_trans (List.length_filter_le _ _) hlen
  · unfold search_with_threshold
    cases hs : search s q topK <;> rfl

/-- Claim C8 counterexample: with the index blob holding one vector
and the mapping blob holding zero ids (counts disagree), `initialize`
succeeds and serves the mismatched pair as-is; with the mapping blob
missing altogether, it silently serves a fresh empty index.  The
claimed fatal consistency error is never produced. -/
theorem c8_counterexample :
    (stBad.indexBlob.getD []).length ≠ (stBad.mappingBlob.getD ([], [])).1.length ∧
    init_service stBad = .ok ⟨[vzero], [], []⟩ ∧
    init_service stHalf = .ok create_new_index := by
  refine ⟨by decide, ?_, ?_⟩
  · rfl
  · rfl

/-- Claim C8 (amended): initialization never fails.  If either blob
is missing it silently creates a fresh empty index; if both blobs are
present and readable it installs them exactly as stored, with no
count or dimension consistency check, even when they disagree; a read
or unpickle exception also falls back to a fresh empty index. -/
theorem c8_amended_never_fails (st : Storage) :
    (∃ s, init_service st = .ok s) ∧
    (st.indexBlob = none ∨ st.mappingBlob = none →
      init_service st = .ok create_new_index) ∧
    (st.loadRaises = true → init_service st = .ok create_new_index) ∧
    (∀ vs pids d, st.indexBlob = some vs → st.mappingBlob = some (pids, d) →
      st.loadRaises = false → init_service st = .ok ⟨vs, pids, d⟩) := by
  refine ⟨?_, ?_, ?_, ?_⟩
  · unfold init_service
    split_ifs <;> exact ⟨_, rfl⟩
  · intro h
    unfold init_service
    split_ifs with hc
    · rcases h with h | h
      · rw [h] at hc
        simp at hc
      · rw [h] at hc
        simp at hc
    · rfl
  · intro h
    unfold init_service load_index
    split_ifs with hc
    · rfl
    · rfl
  · intro vs pids d h1 h2 h3
    unfold init_service load_index
    split_ifs with hc hraise
    · exact absurd hraise (by rw [h3]; exact Bool.false_ne_true)
    · rw [h1, h2]
    · exact absurd ⟨by rw [h1]; rfl, by rw [h2]; rfl⟩ hc

/-- Claim C8 witness: the amended behaviour at the concrete
mismatched storage: the disagreeing blobs are installed as-is. -/
theorem c8_witness : init_service stBad = .ok ⟨[vzero], [], []⟩ :=
  (c8_amended_never_fails stBad).2.2.2 [vzero] [] [] rfl rfl rfl

/-- Claim C9: for every choice of encoder models, image source and
text, the multimodal encoding equals the fusion rule of the spec
applied to the three encoder outputs: L2-normalisation of the
concatenation of the elementwise average of the CLIP image and CLIP
text vectors with the SentenceTransformer vector, the zero vector
passing through unnormalised. -/
theorem c9_multimodal_fusion (E : Encoders) (img : String) (text : List Char) :
    encode_multimodal E img text =
      fuseSpec (encode_image_clip E img) (encode_text_clip E text)
        (encode_text_sbert E text) := by
  unfold encode_multimodal fuseSpec
  dsimp only
  by_cases h : text = []
  · subst h
    have hc : encode_text_clip E [] = List.replicate 512 0 := by
      unfold encode_text_clip
      simp
    have hs : encode_text_sbert E [] = List.replicate 384 0 := by
      unfold encode_text_sbert
      simp
    have ht1 : (if ([] : List Char) ≠ [] then encode_text_clip E []
        else List.replicate 512 0) = List.replicate 512 0 :=
      if_neg (not_not_intro rfl)
    have ht2 : (if ([] : List Char) ≠ [] then encode_text_sbert E []
        else List.replicate 384 0) = List.replicate 384 0 :=
      if_neg (not_not_intro rfl)
    rw [ht1, ht2, hc, hs, l2normalize_eq]
  · have ht1 : (if text ≠ [] then encode_text_clip E text
        else List.replicate 512 0) = encode_text_clip E text := if_pos h
    have ht2 : (if text ≠ [] then encode_text_sbert E text
        else List.replicate 384 0) = encode_text_sbert E text := if_pos h
    rw [ht1, ht2, l2normalize_eq]

/-- Claim C10: for a positive batch size and an encoder whose
successful outputs are 896-dimensional, the batch encoding produces
exactly one row per input product in input order; a product whose
encoding raises contributes the all-zero 896-vector at its position
instead of being skipped or aborting the batch, and every row has
length 896. -/
theorem c10_batch_encode {α : Type} (enc : α → Option (List ℝ)) (bs : ℕ)
    (products : List α) (hbs : 0 < bs)
    (hdim : ∀ p e, enc p = some e → e.length = 896) :
    batch_encode_products enc bs products = products.map (encodeOrZero enc) ∧
    (batch_encode_products enc bs products).length = products.length ∧
    ∀ row ∈ batch_encode_products enc bs products, row.length = 896 := by
  have h1 := batch_encode_eq_map enc bs products hbs
  refine ⟨h1, by rw [h1, List.length_map], ?_⟩
  intro row hrow
  rw [h1] at hrow
  rcases List.mem_map.mp hrow with ⟨p, _, hrow2⟩
  rw [← hrow2]
  unfold encodeOrZero
  cases he : enc p with
  | none => simp
  | some e => exact hdim p e he

/-- Claim C10 witness: a two-product batch where product 0 raises:
the result is the zero row followed by the encoded row. -/
theorem c10_witness :
    batch_encode_products enc0 32 [0, 1] = [0, 1].map (encodeOrZero enc0) ∧
    (batch_encode_products enc0 32 [0, 1]).length = ([0, 1] : List ℕ).length ∧
    ∀ row ∈ batch_encode_products enc0 32 [0, 1], row.length = 896 :=
  c10_batch_encode enc0 32 [0, 1] (by decide) (by
    intro p e he
    unfold enc0 at he
    split_ifs at he with hp
    rw [← Option.some.inj he]
    simp)
